import Mathlib

/-!
Verification development for the pangram-finder program (src/main.rs).

The program pipeline is: sanitize corpus lines, deduplicate, rank letters by
rarity, encode each word as a 32-bit letter-presence mask (bit 31 - r for the
letter of rarity rank r), partition the encoded words into per-rank buckets,
and run a recursive backtracking search that repeatedly extends a partial
pangram by words drawn from the bucket of the lowest-ranked uncovered letter.

Machine integers (u32) are modelled as Nat; every mask produced by the encoder
for an alphabet of at most 32 ranked letters is below 2 ^ 32, so no wrap-around
occurs in the source and none is modelled.  Vec indexing, which panics when out
of bounds in Rust, is modelled with Option: a none result means the run aborts.
The two recursive loops of the source (the per-word bucket-filling while loop
and the recursive search) are modelled with an explicit fuel argument so that
the definitions stay structurally recursive and computable; the fuel chosen at
every call site is proved sufficient by the lemmas below, so a none result of
the entry-point wrappers can only arise from an out-of-bounds bucket index.
-/

set_option linter.unusedVariables false

namespace PangramFinder

/-! ### Bit-level primitives (u32 operations used by the source) -/

/-- Helper for `leadingOnes32`: number of consecutive set bits of `x` counting
down from bit `n - 1`. -/
def loAux (x : Nat) : Nat → Nat
  | 0 => 0
  | n+1 => if x.testBit n then loAux x n + 1 else 0

/-- Model of `u32::leading_ones`: consecutive set bits from bit 31 down. -/
def leadingOnes32 (x : Nat) : Nat := loAux x 32

/-- Helper for `leadingZeros32`: number of consecutive clear bits of `x`
counting down from bit `n - 1`. -/
def lzAux (x : Nat) : Nat → Nat
  | 0 => 0
  | n+1 => if x.testBit n then 0 else lzAux x n + 1

/-- Model of `u32::leading_zeros`: consecutive clear bits from bit 31 down. -/
def leadingZeros32 (x : Nat) : Nat := lzAux x 32

/-- A mask is well formed when it fits in a u32 and only uses the 26 high bits
(bit positions 6..31); every mask the encoder produces for a 26-letter ranking
satisfies this. -/
def maskOK (m : Nat) : Prop := m < 2 ^ 32 ∧ ∀ j < 6, m.testBit j = false

instance : DecidablePred maskOK := fun m => by unfold maskOK; infer_instance

/-! ### String sanitization (SanitizedString::sanitize, get_unique_letters) -/

/-- Remove consecutive duplicates, as Rust `Vec::dedup` does (applied after a
sort in the source, so it deduplicates globally there). -/
def dedupConsec {α : Type} [DecidableEq α] : List α → List α
  | [] => []
  | [a] => [a]
  | a :: b :: rest =>
    if a = b then dedupConsec (b :: rest) else a :: dedupConsec (b :: rest)

/-- Model of `SanitizedString::sanitize`: trim surrounding whitespace,
uppercase, keep only ASCII alphabetic characters.  (`Char.toUpper` and
`Char.isAlpha` agree with the Rust functions on the ASCII corpora considered
here.) -/
def sanitize (s : List Char) : List Char :=
  ((((s.dropWhile Char.isWhitespace).reverse.dropWhile Char.isWhitespace).reverse).map
    Char.toUpper).filter Char.isAlpha

/-- Model of `SanitizedString::get_unique_letters`: sort the characters and
remove duplicates. -/
def getUniqueLetters (s : List Char) : List Char :=
  dedupConsec (List.insertionSort (fun a b => a ≤ b) s)

/-- Byte-wise lexicographic comparison of strings, as Rust `str::cmp`. -/
def lexLe : List Char → List Char → Bool
  | [], _ => true
  | _ :: _, [] => false
  | a :: as, b :: bs => if a = b then lexLe as bs else decide (a < b)

/-- The sanitized, non-empty, sorted, deduplicated word list built at the top
of `main` from the corpus lines. -/
def normalizeInput (lines : List (List Char)) : List (List Char) :=
  dedupConsec (List.insertionSort (fun a b => lexLe a b = true)
    ((lines.map sanitize).filter (fun s => decide (0 < s.length))))

/-- Number of normalized words containing the letter `c`; this is the tally
`occurences_of_each_letter` computes for `c` in `main`. -/
def countWordsWith (ws : List (List Char)) (c : Char) : Nat :=
  (ws.filter (fun w => decide (c ∈ w))).length

/-- A canonical list of the letters occurring in the normalized corpus (the
key set of `occurences_of_each_letter`). -/
def presentLetters (ws : List (List Char)) : List Char :=
  dedupConsec (List.insertionSort (fun a b => a ≤ b) (ws.map getUniqueLetters).flatten)

/-- `order` is a possible value of `letters_sorted_by_rarity` for the
normalized corpus `ws`: a permutation of the letters present, sorted by
ascending word count.  (The tie order among equal counts comes from a HashMap
iteration and is not determined, hence the quantification.) -/
def validRarityOrder (ws : List (List Char)) (order : List Char) : Prop :=
  List.Perm order (presentLetters ws) ∧
  List.Sorted (fun a b => countWordsWith ws a ≤ countWordsWith ws b) order

instance (ws : List (List Char)) (order : List Char) :
    Decidable (validRarityOrder ws order) := by
  unfold validRarityOrder List.Sorted; infer_instance

/-! ### Word encoding (struct Word, Word::parse_string) -/

structure Word where
  name : List Char
  letters_present : Nat
deriving DecidableEq

/-- The fold of `Word::parse_string`: one bit per ranked letter, the first
(rarest) letter of `order` ending in the most significant position of the
used field.  `2 * acc` models `acc << 1` (no u32 overflow occurs for the
rankings of at most 32 letters the program builds). -/
def foldMask (s : List Char) (order : List Char) : Nat :=
  order.foldl (fun acc letter => 2 * acc + (if letter ∈ s then 1 else 0)) 0

/-- Model of `Word::parse_string`: build the rank-ordered presence mask and
left-justify it in the 32-bit field. -/
def Word.parse_string (s : List Char) (order_of_letters : List Char) : Word :=
  { name := s
    letters_present := foldMask s order_of_letters <<< (32 - order_of_letters.length) }

/-- The encoded word list built in `main` (one `Word` per normalized word). -/
def wordListOf (lines : List (List Char)) (order : List Char) : List Word :=
  (normalizeInput lines).map (fun s => Word.parse_string s order)

/-! ### Letter bucket index (WordsWithLetter, SearchStructure::build) -/

/-- One bucket (`WordsWithLetter.words`). -/
abbrev Bucket := List Word

structure SearchStructure where
  search_structure : List Bucket
deriving DecidableEq

/-- Bucket at index `r`, empty when out of range (lemma use only). -/
def bucketAt (out : List Bucket) (r : Nat) : Bucket := (out.get? r).getD []

/-- The inner while loop of `SearchStructure::build`: walk the set bits of
`letters_remaining` from the most significant down, appending the word to the
bucket of each; an out-of-range bucket index is the Rust panic, modelled as
none.  The loop runs once per set bit; the fuel argument (33 at the call site)
keeps the definition structural and is proved sufficient below. -/
def addWordLoop (w : Word) : Nat → List Bucket → Nat → Option (List Bucket)
  | _, output, 0 => some output
  | 0, _, _+1 => none
  | fuel+1, output, r+1 =>
    let letters_remaining := r + 1
    let next_letter_index := leadingZeros32 letters_remaining
    match output.get? next_letter_index with
    | none => none
    | some bucket =>
      addWordLoop w fuel (output.set next_letter_index (bucket ++ [w]))
        (letters_remaining - 2 ^ (31 - next_letter_index))

/-- The word loop of `SearchStructure::build`. -/
def buildLoop : List Bucket → List Word → Option (List Bucket)
  | output, [] => some output
  | output, w :: rest =>
    match addWordLoop w 33 output w.letters_present with
    | none => none
    | some output' => buildLoop output' rest

/-- Model of `SearchStructure::build`. -/
def SearchStructure.build (number_of_letters : Nat) (words : List Word) :
    Option SearchStructure :=
  (buildLoop (List.replicate number_of_letters []) words).map SearchStructure.mk

/-! ### Pangram search (Pangram, PangramState, find_pangrams) -/

structure Solution where
  words : List Word
deriving DecidableEq

structure Pangram where
  selected_words : List Word
  selected_letters : Nat
deriving DecidableEq

inductive PangramState where
  | PotentialPangram (p : Pangram)
  | FailedPangram
  | CompletePangram (s : Solution)

/-- The comparison `a.letters_present.cmp(&b.letters_present)` used to sort a
completed solution. -/
def maskLe (a b : Word) : Prop := a.letters_present ≤ b.letters_present

instance : DecidableRel maskLe := fun a b => Nat.decLe a.letters_present b.letters_present

instance : IsTotal Word maskLe := ⟨fun a b => Nat.le_total a.letters_present b.letters_present⟩

instance : IsTrans Word maskLe := ⟨fun _ _ _ => Nat.le_trans⟩

/-- The sort applied to a completed solution's words (`sort_by` on the mask;
ties between equal masks never occur in an emitted solution, see
`emitted_nodup`, so stability is irrelevant). -/
def sortWords (l : List Word) : List Word := List.insertionSort maskLe l

/-- Model of `Pangram::next_missing_letter`. -/
def Pangram.next_missing_letter (p : Pangram) : Nat := leadingOnes32 p.selected_letters

/-- Model of `Pangram::check_with`.  The completion test is hard-coded to 26
leading ones in the source (`new_selected_letters.leading_ones() >= 26`). -/
def Pangram.check_with (maxSize : Nat) (p : Pangram) (new_word : Word) : PangramState :=
  let new_selected_letters := p.selected_letters ||| new_word.letters_present
  if 26 ≤ leadingOnes32 new_selected_letters then
    PangramState.CompletePangram ⟨sortWords (new_word :: p.selected_words)⟩
  else if maxSize ≤ p.selected_words.length + 1 then
    PangramState.FailedPangram
  else
    PangramState.PotentialPangram ⟨new_word :: p.selected_words, new_selected_letters⟩

/-- The candidate loop of `SearchStructure::find_pangrams`, parametrized by the
recursive call `step` taken on a `PotentialPangram`. -/
def loopWith (step : Pangram → List Solution → Option (List Solution)) (maxSize : Nat)
    (p : Pangram) : List Word → List Solution → Option (List Solution)
  | [], pangrams => some pangrams
  | new_word :: rest, pangrams =>
    match p.check_with maxSize new_word with
    | PangramState.CompletePangram solution =>
      loopWith step maxSize p rest (pangrams ++ [solution])
    | PangramState.FailedPangram => loopWith step maxSize p rest pangrams
    | PangramState.PotentialPangram potential =>
      match step potential pangrams with
      | none => none
      | some pangrams' => loopWith step maxSize p rest pangrams'

/-- Fuel-indexed model of `SearchStructure::find_pangrams`: look up the bucket
of the next missing letter (an out-of-range index is the Rust panic, modelled
as none) and run the candidate loop, recursing on potential pangrams.  Each
recursion step adds one selected word and is only taken while
`selected_words.len() + 1 < maxSize`, so fuel `maxSize + 1` is sufficient
(`find_pangramsF_fuel_irrelevant` below). -/
def find_pangramsF : Nat → SearchStructure → Nat → Pangram → List Solution →
    Option (List Solution)
  | 0, _, _, _, _ => none
  | fuel+1, S, maxSize, p, pangrams =>
    match S.search_structure.get? p.next_missing_letter with
    | none => none
    | some bucket => loopWith (find_pangramsF fuel S maxSize) maxSize p bucket pangrams

/-- Model of `SearchStructure::find_pangrams` with the sufficient fuel. -/
def SearchStructure.find_pangrams (S : SearchStructure) (maxSize : Nat)
    (current_pangram : Pangram) (pangrams : List Solution) : Option (List Solution) :=
  find_pangramsF (maxSize + 1) S maxSize current_pangram pangrams

/-! ### Result aggregation (main) -/

/-- Model of `itertools::unique`: keep the first occurrence of every element. -/
def uniqueAux {α : Type} [DecidableEq α] (seen : List α) : List α → List α
  | [] => []
  | x :: xs => if x ∈ seen then uniqueAux seen xs else x :: uniqueAux (x :: seen) xs

/-- Deduplicated solution list, as `all_pangrams.into_iter().unique()`. -/
def unique {α : Type} [DecidableEq α] (l : List α) : List α := uniqueAux [] l

/-- The compile-time constant `MAX_SOLUTION_SIZE` of the source. -/
def MAX_SOLUTION_SIZE : Nat := 4

/-- The whole run of `main` after corpus loading, up to the solution list:
normalize, encode with the given rarity order, build the bucket index, search
from the empty pangram.  none models a panic. -/
def pipeline (lines : List (List Char)) (order : List Char) (maxSize : Nat) :
    Option (List Solution) :=
  match SearchStructure.build order.length (wordListOf lines order) with
  | none => none
  | some S => S.find_pangrams maxSize ⟨[], 0⟩ []

/-- The single integer `main` prints: the length of the deduplicated solution
list. -/
def pipelineCount (lines : List (List Char)) (order : List Char) (maxSize : Nat) :
    Option Nat :=
  (pipeline lines order maxSize).map (fun res => (unique res).length)

/-- Modelled from the spec: the spec's merged-word multiplicity of a Word Entry
is the count of source words sharing that entry's mask; no such field exists in
the source, which never merges words. -/
def specMultiplicity (word_list : List Word) (w : Word) : Nat :=
  (word_list.filter (fun v => decide (v.letters_present = w.letters_present))).length

/-- Modelled from the spec: the total the spec says should be reported — the
sum, over the distinct deduplicated Solutions, of the product of the
multiplicities of each Solution's entries. -/
def specMultTotal (lines : List (List Char)) (order : List Char) (maxSize : Nat) :
    Option Nat :=
  (pipeline lines order maxSize).map (fun res =>
    ((unique res).map (fun sol =>
      (sol.words.map (specMultiplicity (wordListOf lines order))).prod)).sum)

/-- Bitwise OR of the masks of a list of words (the `covered` value of a
solution). -/
def orMasks (l : List Word) : Nat := l.foldr (fun w acc => w.letters_present ||| acc) 0

/-! ### Concrete data for witnesses and counterexamples -/

def alphaChars : List Char := "ABCDEFGHIJKLMNOPQRSTUVWXYZ".toList

def alphaRevChars : List Char := "ZYXWVUTSRQPONMLKJIHGFEDCBA".toList

/-- The 26-letter word covering the whole alphabet. -/
def wFull : Word := Word.parse_string alphaChars alphaChars

/-! ### Characterization of the leading-ones / leading-zeros primitives -/

theorem loAux_le (x : Nat) : ∀ n, loAux x n ≤ n := by
  intro n
  induction n with
  | zero => simp [loAux]
  | succ n ih =>
    by_cases hb : x.testBit n
    · have hlo : loAux x (n + 1) = loAux x n + 1 := by simp [loAux, hb]
      rw [hlo]; omega
    · have hlo : loAux x (n + 1) = 0 := by simp [loAux, hb]
      rw [hlo]; omega

/-- The bit right below the leading run of ones is clear. -/
theorem loAux_lt_testBit (x : Nat) : ∀ n, loAux x n < n → x.testBit (n - 1 - loAux x n) = false := by
  intro n
  induction n with
  | zero => intro h; omega
  | succ n ih =>
    intro h
    by_cases hb : x.testBit n
    · have hlo : loAux x (n + 1) = loAux x n + 1 := by simp [loAux, hb]
      rw [hlo] at h ⊢
      have h' : loAux x n < n := by omega
      have harith : n + 1 - 1 - (loAux x n + 1) = n - 1 - loAux x n := by omega
      rw [harith]
      exact ih h'
    · have hlo : loAux x (n + 1) = 0 := by simp [loAux, hb]
      have harith : n + 1 - 1 - (0 : Nat) = n := by omega
      rw [hlo, harith]
      simpa using hb

/-- All bits inside the leading run of ones are set. -/
theorem loAux_ge_testBit (x : Nat) :
    ∀ n j, n - loAux x n ≤ j → j < n → x.testBit j = true := by
  intro n
  induction n with
  | zero => intro j h1 h2; omega
  | succ n ih =>
    intro j h1 h2
    by_cases hb : x.testBit n
    · have hlo : loAux x (n + 1) = loAux x n + 1 := by simp [loAux, hb]
      rw [hlo] at h1
      rcases Nat.lt_or_ge j n with hj | hj
      · have hle := loAux_le x n
        exact ih j (by omega) hj
      · have hjn : j = n := by omega
        rw [hjn]; exact hb
    · have hlo : loAux x (n + 1) = 0 := by simp [loAux, hb]
      rw [hlo] at h1
      omega

theorem leadingOnes32_le (x : Nat) : leadingOnes32 x ≤ 32 := loAux_le x 32

/-- The next missing letter's bit is clear in the covered mask. -/
theorem leadingOnes32_next_false (x : Nat) (h : leadingOnes32 x < 32) :
    x.testBit (31 - leadingOnes32 x) = false := by
  have := loAux_lt_testBit x 32 h
  simpa [leadingOnes32] using this

/-- With at least 26 leading ones, every bit in positions 6..31 is set. -/
theorem leadingOnes32_ge26_testBit (x : Nat) (h : 26 ≤ leadingOnes32 x) :
    ∀ j, 6 ≤ j → j < 32 → x.testBit j = true := by
  intro j h6 h32
  exact loAux_ge_testBit x 32 j (by unfold leadingOnes32 at h; omega) h32

/-- `x < 2 ^ m` as soon as every bit at position `m` or above is clear. -/
theorem lt_two_pow_of_high_bits_false (x m : Nat) (h : ∀ j, m ≤ j → x.testBit j = false) :
    x < 2 ^ m := by
  have hx : x = x % 2 ^ m := by
    apply Nat.eq_of_testBit_eq
    intro k
    rw [Nat.testBit_mod_two_pow]
    by_cases hk : k < m
    · simp [hk]
    · simp [hk, h k (Nat.le_of_not_lt hk)]
  rw [hx]
  exact Nat.mod_lt _ (Nat.pos_pow_of_pos _ (by norm_num))

/-- A u32 value whose 26 leading bits are all ones and whose low 6 bits are
clear is exactly the full-alphabet mask. -/
theorem eq_full_mask_of_leadingOnes (x : Nat) (hok : maskOK x) (h : 26 ≤ leadingOnes32 x) :
    x = 2 ^ 32 - 64 := by
  apply Nat.eq_of_testBit_eq
  intro k
  rcases Nat.lt_or_ge k 32 with hk | hk
  · rcases Nat.lt_or_ge k 6 with hk6 | hk6
    · rw [hok.2 k hk6]
      have : ∀ k' < 6, (2 ^ 32 - 64 : Nat).testBit k' = false := by decide
      rw [this k hk6]
    · rw [leadingOnes32_ge26_testBit x h k hk6 hk]
      have : ∀ k' < 32, 6 ≤ k' → (2 ^ 32 - 64 : Nat).testBit k' = true := by decide
      rw [this k hk hk6]
  · have h1 : x.testBit k = false :=
      Nat.testBit_eq_false_of_lt (Nat.lt_of_lt_of_le hok.1 (Nat.pow_le_pow_right (by norm_num) hk))
    have h2 : (2 ^ 32 - 64 : Nat).testBit k = false :=
      Nat.testBit_eq_false_of_lt (Nat.lt_of_lt_of_le (by norm_num) (Nat.pow_le_pow_right (by norm_num) hk))
    rw [h1, h2]

theorem lzAux_le (x : Nat) : ∀ n, lzAux x n ≤ n := by
  intro n
  induction n with
  | zero => simp [lzAux]
  | succ n ih =>
    by_cases hb : x.testBit n
    · have hlo : lzAux x (n + 1) = 0 := by simp [lzAux, hb]
      rw [hlo]; omega
    · have hlo : lzAux x (n + 1) = lzAux x n + 1 := by simp [lzAux, hb]
      rw [hlo]; omega

/-- The bit right below the leading run of zeros is set. -/
theorem lzAux_lt_testBit (x : Nat) : ∀ n, lzAux x n < n → x.testBit (n - 1 - lzAux x n) = true := by
  intro n
  induction n with
  | zero => intro h; omega
  | succ n ih =>
    intro h
    by_cases hb : x.testBit n
    · have hlo : lzAux x (n + 1) = 0 := by simp [lzAux, hb]
      have harith : n + 1 - 1 - (0 : Nat) = n := by omega
      rw [hlo, harith]
      exact hb
    · have hlo : lzAux x (n + 1) = lzAux x n + 1 := by simp [lzAux, hb]
      rw [hlo] at h ⊢
      have harith : n + 1 - 1 - (lzAux x n + 1) = n - 1 - lzAux x n := by omega
      rw [harith]
      exact ih (by omega)

/-- All bits inside the leading run of zeros are clear. -/
theorem lzAux_ge_testBit (x : Nat) :
    ∀ n j, n - lzAux x n ≤ j → j < n → x.testBit j = false := by
  intro n
  induction n with
  | zero => intro j h1 h2; omega
  | succ n ih =>
    intro j h1 h2
    by_cases hb : x.testBit n
    · have hlo : lzAux x (n + 1) = 0 := by simp [lzAux, hb]
      rw [hlo] at h1
      omega
    · have hlo : lzAux x (n + 1) = lzAux x n + 1 := by simp [lzAux, hb]
      rw [hlo] at h1
      rcases Nat.lt_or_ge j n with hj | hj
      · have hle := lzAux_le x n
        exact ih j (by omega) hj
      · have hjn : j = n := by omega
        rw [hjn]
        simpa using hb

theorem lzAux_lt_of_ne_zero (x n : Nat) (hx : x ≠ 0) (hn : x < 2 ^ n) : lzAux x n < n := by
  by_contra hge
  have heq : lzAux x n = n := Nat.le_antisymm (lzAux_le x n) (Nat.le_of_not_lt hge)
  apply hx
  apply Nat.eq_of_testBit_eq
  intro k
  rw [Nat.zero_testBit]
  rcases Nat.lt_or_ge k n with hk | hk
  · exact lzAux_ge_testBit x n k (by omega) hk
  · exact Nat.testBit_eq_false_of_lt
      (Nat.lt_of_lt_of_le hn (Nat.pow_le_pow_right (by norm_num) hk))

/-- For a nonzero u32 value, `leading_zeros` points at the most significant
set bit: bit `31 - lz` is set and everything above it is clear. -/
theorem leadingZeros32_spec (x : Nat) (hx : x ≠ 0) (h32 : x < 2 ^ 32) :
    leadingZeros32 x < 32 ∧ x.testBit (31 - leadingZeros32 x) = true ∧
      ∀ j, 31 - leadingZeros32 x < j → x.testBit j = false := by
  have hlt : lzAux x 32 < 32 := lzAux_lt_of_ne_zero x 32 hx h32
  refine ⟨hlt, ?_, ?_⟩
  · have := lzAux_lt_testBit x 32 hlt
    simpa [leadingZeros32] using this
  · intro j hj
    rcases Nat.lt_or_ge j 32 with hj32 | hj32
    · exact lzAux_ge_testBit x 32 j (by unfold leadingZeros32 at hj; omega) hj32
    · exact Nat.testBit_eq_false_of_lt
        (Nat.lt_of_lt_of_le h32 (Nat.pow_le_pow_right (by norm_num) hj32))

theorem maskOK_zero : maskOK 0 := by constructor <;> simp [Nat.zero_testBit, Nat.pos_pow_of_pos]

theorem maskOK_lor (a b : Nat) (ha : maskOK a) (hb : maskOK b) : maskOK (a ||| b) := by
  constructor
  · apply lt_two_pow_of_high_bits_false
    intro j hj
    rw [Nat.testBit_lor]
    have h1 : a.testBit j = false := Nat.testBit_eq_false_of_lt
      (Nat.lt_of_lt_of_le ha.1 (Nat.pow_le_pow_right (by norm_num) hj))
    have h2 : b.testBit j = false := Nat.testBit_eq_false_of_lt
      (Nat.lt_of_lt_of_le hb.1 (Nat.pow_le_pow_right (by norm_num) hj))
    rw [h1, h2]; rfl
  · intro j hj
    rw [Nat.testBit_lor, ha.2 j hj, hb.2 j hj]; rfl

/-! ### Properties of the word encoder -/

theorem foldMask_concat (s l : List Char) (c : Char) :
    foldMask s (l ++ [c]) = 2 * foldMask s l + (if c ∈ s then 1 else 0) := by
  unfold foldMask
  rw [List.foldl_append]
  rfl

theorem foldMask_lt (s : List Char) (order : List Char) :
    foldMask s order < 2 ^ order.length := by
  induction order using List.reverseRecOn with
  | nil => simp [foldMask]
  | append_singleton l c ih =>
    rw [foldMask_concat, List.length_append, List.length_singleton]
    have h2 : 2 ^ (l.length + 1) = 2 * 2 ^ l.length := by ring
    by_cases hc : c ∈ s <;> simp only [hc, if_true, if_false] <;> omega

/-- Bit `k` of the rank fold is set iff the letter at position
`order.length - 1 - k` of the ranking occurs in the word. -/
theorem foldMask_testBit (s : List Char) (order : List Char) (k : Nat) :
    (foldMask s order).testBit k = true ↔
      k < order.length ∧ ∃ c, order.get? (order.length - 1 - k) = some c ∧ c ∈ s := by
  induction order using List.reverseRecOn generalizing k with
  | nil =>
    simp [foldMask, Nat.zero_testBit]
  | append_singleton l c ih =>
    rw [foldMask_concat]
    have hb : (if c ∈ s then 1 else 0) ≤ 1 := by by_cases hc : c ∈ s <;> simp [hc]
    match k with
    | 0 =>
      rw [Nat.testBit_zero]
      have hmod : (2 * foldMask s l + (if c ∈ s then 1 else 0)) % 2 = (if c ∈ s then 1 else 0) := by
        omega
      rw [hmod]
      have hidx : (l ++ [c]).length - 1 - 0 = l.length := by simp
      rw [hidx, List.get?_concat_length]
      constructor
      · intro h
        refine ⟨by simp, c, rfl, ?_⟩
        by_cases hc : c ∈ s
        · exact hc
        · simp [hc] at h
      · rintro ⟨-, c', hc', hcs⟩
        have : c' = c := (Option.some.inj hc').symm
        subst this
        simp [hcs]
    | k + 1 =>
      rw [Nat.testBit_succ]
      have hdiv : (2 * foldMask s l + (if c ∈ s then 1 else 0)) / 2 = foldMask s l := by omega
      rw [hdiv, ih]
      have hlen : (l ++ [c]).length = l.length + 1 := by simp
      constructor
      · rintro ⟨hk, c', hc', hcs⟩
        have hidx : (l ++ [c]).length - 1 - (k + 1) = l.length - 1 - k := by omega
        refine ⟨by omega, c', ?_, hcs⟩
        rw [hidx, List.get?_append (by omega)]
        exact hc'
      · rintro ⟨hk, c', hc', hcs⟩
        rw [hlen] at hk
        have hk' : k < l.length := by omega
        have hidx : (l ++ [c]).length - 1 - (k + 1) = l.length - 1 - k := by omega
        rw [hidx, List.get?_append (by omega)] at hc'
        exact ⟨hk', c', hc', hcs⟩

/-- Bit `31 - r` of an encoded word's mask is set iff the rank-`r` letter of
the ordering occurs in the word. -/
theorem parse_string_testBit (s order : List Char) (hlen : order.length ≤ 32)
    (r : Nat) (L : Char) (hr : order.get? r = some L) :
    ((Word.parse_string s order).letters_present.testBit (31 - r) = true) ↔ L ∈ s := by
  have hrlen : r < order.length := by
    rcases List.get?_eq_some.mp hr with ⟨h, -⟩
    exact h
  show ((foldMask s order <<< (32 - order.length)).testBit (31 - r) = true) ↔ L ∈ s
  rw [Nat.testBit_shiftLeft]
  have hle : 32 - order.length ≤ 31 - r := by omega
  have harith : 31 - r - (32 - order.length) = order.length - 1 - r := by omega
  rw [harith]
  simp only [Bool.and_eq_true, decide_eq_true_eq]
  rw [foldMask_testBit]
  have h1 : order.length - 1 - (order.length - 1 - r) = r := by omega
  rw [h1, hr]
  constructor
  · rintro ⟨-, -, c', hc', hcs⟩
    have : c' = L := (Option.some.inj hc').symm
    subst this
    exact hcs
  · intro hLs
    exact ⟨hle, by omega, L, rfl, hLs⟩

/-- Every mask the encoder produces for a 26-letter ranking is well formed. -/
theorem parse_string_maskOK (s order : List Char) (hlen : order.length = 26) :
    maskOK (Word.parse_string s order).letters_present := by
  constructor
  · show foldMask s order <<< (32 - order.length) < 2 ^ 32
    rw [Nat.shiftLeft_eq, hlen]
    have hf := foldMask_lt s order
    rw [hlen] at hf
    calc foldMask s order * 2 ^ (32 - 26) < 2 ^ 26 * 2 ^ (32 - 26) :=
          (Nat.mul_lt_mul_right (by norm_num : (0 : Nat) < 2 ^ (32 - 26))).mpr hf
      _ = 2 ^ 32 := by norm_num
  · intro j hj
    show (foldMask s order <<< (32 - order.length)).testBit j = false
    rw [Nat.testBit_shiftLeft, hlen]
    have : ¬ (32 - 26 ≤ j) := by omega
    simp [this]

/-! ### Properties of the bucket construction -/

theorem bucketAt_set_self (out : List Bucket) (i : Nat) (b : Bucket) (h : i < out.length) :
    bucketAt (out.set i b) i = b := by
  unfold bucketAt
  rw [List.get?_eq_getElem?, List.getElem?_set_self (by omega)]
  rfl

theorem bucketAt_set_ne (out : List Bucket) (i j : Nat) (b : Bucket) (h : i ≠ j) :
    bucketAt (out.set i b) j = bucketAt out j := by
  unfold bucketAt
  rw [List.get?_eq_getElem?, List.get?_eq_getElem?, List.getElem?_set_ne h]

theorem bucketAt_replicate_nil (n r : Nat) :
    bucketAt (List.replicate n ([] : Bucket)) r = [] := by
  unfold bucketAt
  match h : (List.replicate n ([] : Bucket)).get? r with
  | none => rfl
  | some b =>
    have hb : b ∈ List.replicate n ([] : Bucket) := List.get?_mem h
    have : b = [] := List.eq_of_mem_replicate hb
    simp [this]

/-- The inner while loop of `build` succeeds on every well-formed mask and
appends the word to exactly the buckets of the mask's set bits.  `n` bounds the
mask, and fuel at least `n` suffices since every iteration clears the top set
bit. -/
theorem addWordLoop_spec (w : Word) :
    ∀ n x fuel output, x < 2 ^ n → n ≤ 32 → n ≤ fuel →
      (∀ j < 6, x.testBit j = false) → output.length = 26 →
      ∃ output', addWordLoop w fuel output x = some output' ∧ output'.length = 26 ∧
        ∀ r, r < 26 →
          bucketAt output' r =
            bucketAt output r ++ (if x.testBit (31 - r) then [w] else []) := by
  intro n
  induction n with
  | zero =>
    intro x fuel output hx _ _ _ hlen
    have hx0 : x = 0 := by omega
    subst hx0
    refine ⟨output, by cases fuel <;> simp [addWordLoop], hlen, ?_⟩
    intro r hr
    simp [Nat.zero_testBit]
  | succ n ih =>
    intro x fuel output hx hn hfuel hlow hlen
    match x, fuel with
    | 0, fuel =>
      refine ⟨output, by cases fuel <;> simp [addWordLoop], hlen, ?_⟩
      intro r hr
      simp [Nat.zero_testBit]
    | m+1, fuel+1 =>
      set rem : Nat := m + 1 with hrem
      have hne : rem ≠ 0 := by omega
      have h32 : rem < 2 ^ 32 :=
        Nat.lt_of_lt_of_le hx (Nat.pow_le_pow_right (by norm_num) (by omega))
      obtain ⟨hidx32, htop, habove⟩ := leadingZeros32_spec rem hne h32
      set idx : Nat := leadingZeros32 rem with hidx
      set t : Nat := 31 - idx with ht
      have ht6 : 6 ≤ t := by
        by_contra hlt
        have := hlow t (by omega)
        rw [this] at htop
        exact Bool.false_ne_true htop
      have hidx25 : idx ≤ 25 := by omega
      have hbucket : output.get? idx = some (bucketAt output idx) := by
        rw [List.get?_eq_get (by omega)]
        unfold bucketAt
        rw [List.get?_eq_get (by omega)]
        rfl
      -- the remainder after clearing the top set bit
      have httop : 2 ^ t ≤ rem := by
        by_contra hlt
        have := Nat.testBit_eq_false_of_lt (Nat.lt_of_not_le hlt)
        rw [this] at htop
        exact Bool.false_ne_true htop
      have hlt_succ : rem < 2 ^ (t + 1) := by
        apply lt_two_pow_of_high_bits_false
        intro j hj
        exact habove j (by omega)
      have hpow : 2 ^ (t + 1) = 2 * 2 ^ t := by ring
      have hmod : rem - 2 ^ t = rem % 2 ^ t := by
        rw [Nat.mod_eq_sub_mod httop, Nat.mod_eq_of_lt (by omega)]
      have hremlt : rem % 2 ^ t < 2 ^ t := Nat.mod_lt _ (Nat.pos_pow_of_pos _ (by norm_num))
      have htn : t ≤ n := by
        by_contra hgt
        have : 2 ^ (n + 1) ≤ 2 ^ t := Nat.pow_le_pow_right (by norm_num) (by omega)
        omega
      have hrem'bit : ∀ j, (rem % 2 ^ t).testBit j = (decide (j < t) && rem.testBit j) := by
        intro j
        rw [Nat.testBit_mod_two_pow]
      have hstep :
          addWordLoop w (fuel + 1) output rem =
            match output.get? (leadingZeros32 rem) with
            | none => none
            | some bucket =>
              addWordLoop w fuel (output.set (leadingZeros32 rem) (bucket ++ [w]))
                (rem - 2 ^ (31 - leadingZeros32 rem)) := rfl
      have hout1len : (output.set idx (bucketAt output idx ++ [w])).length = 26 := by
        rw [List.length_set]; exact hlen
      have hrem'lt : rem - 2 ^ t < 2 ^ n := by
        rw [hmod]
        exact Nat.lt_of_lt_of_le hremlt (Nat.pow_le_pow_right (by norm_num) htn)
      have hrem'low : ∀ j < 6, (rem - 2 ^ t).testBit j = false := by
        intro j hj
        rw [hmod, hrem'bit j]
        rw [hlow j hj]
        simp
      obtain ⟨output', hrun, hlen', hbuckets⟩ :=
        ih (rem - 2 ^ t) fuel (output.set idx (bucketAt output idx ++ [w]))
          hrem'lt (by omega) (by omega) hrem'low hout1len
      refine ⟨output', ?_, hlen', ?_⟩
      · rw [hstep, ← hidx, hbucket]
        exact hrun
      intro r hr
      rcases eq_or_ne r idx with hri | hri
      · subst hri
        rw [hbuckets idx hr]
        have hset : bucketAt (output.set idx (bucketAt output idx ++ [w])) idx =
            bucketAt output idx ++ [w] := bucketAt_set_self output idx _ (by omega)
        rw [hset]
        have hbit' : (rem - 2 ^ t).testBit (31 - idx) = false := by
          rw [hmod, hrem'bit]
          have hni : ¬ (31 - idx < t) := by omega
          simp [hni]
        have hbit : rem.testBit (31 - idx) = true := by
          have he : 31 - idx = t := by omega
          rw [he]; exact htop
        rw [hbit', hbit]
        simp
      · rw [hbuckets r hr]
        rw [bucketAt_set_ne output idx r _ (by omega)]
        have hbit : (rem - 2 ^ t).testBit (31 - r) = rem.testBit (31 - r) := by
          rw [hmod, hrem'bit]
          rcases Nat.lt_or_ge (31 - r) t with hj | hj
          · simp [hj]
          · have hjt : t < 31 - r := by omega
            have h1 : rem.testBit (31 - r) = false := habove (31 - r) (by omega)
            have : ¬ (31 - r < t) := by omega
            simp [this, h1]
        rw [hbit]

/-- The word loop of `build` appends, for every rank, exactly the words whose
mask contains that rank's bit, in word-list order. -/
theorem buildLoop_spec :
    ∀ (words : List Word) (output : List Bucket),
      (∀ w ∈ words, maskOK w.letters_present) → output.length = 26 →
      ∃ output', buildLoop output words = some output' ∧ output'.length = 26 ∧
        ∀ r, r < 26 → bucketAt output' r =
          bucketAt output r ++ words.filter (fun w => w.letters_present.testBit (31 - r)) := by
  intro words
  induction words with
  | nil =>
    intro output _ hlen
    exact ⟨output, rfl, hlen, by intro r hr; simp⟩
  | cons w rest ih =>
    intro output hm hlen
    have hw : maskOK w.letters_present := hm w (by simp)
    obtain ⟨output₁, hrun₁, hlen₁, hb₁⟩ :=
      addWordLoop_spec w 32 w.letters_present 33 output hw.1 (by omega) (by omega) hw.2 hlen
    obtain ⟨output', hrun', hlen', hb'⟩ :=
      ih output₁ (fun v hv => hm v (by simp [hv])) hlen₁
    refine ⟨output', ?_, hlen', ?_⟩
    · show buildLoop output (w :: rest) = some output'
      unfold buildLoop
      rw [hrun₁]
      exact hrun'
    · intro r hr
      rw [hb' r hr, hb₁ r hr, List.filter_cons]
      by_cases hbit : w.letters_present.testBit (31 - r) <;>
        simp [hbit, List.append_assoc]

/-- `SearchStructure::build` on a 26-letter ranking: every bucket `r` is
exactly the sub-list of words whose mask has bit `31 - r` set. -/
theorem build_spec (words : List Word) (hm : ∀ w ∈ words, maskOK w.letters_present) :
    ∃ S, SearchStructure.build 26 words = some S ∧ S.search_structure.length = 26 ∧
      ∀ r, r < 26 → S.search_structure.get? r =
        some (words.filter (fun w => w.letters_present.testBit (31 - r))) := by
  obtain ⟨output', hrun, hlen, hb⟩ :=
    buildLoop_spec words (List.replicate 26 []) hm (by simp)
  refine ⟨⟨output'⟩, ?_, hlen, ?_⟩
  · unfold SearchStructure.build
    rw [hrun]
    rfl
  · intro r hr
    have h1 : bucketAt output' r =
        words.filter (fun w => w.letters_present.testBit (31 - r)) := by
      rw [hb r hr, bucketAt_replicate_nil]
      simp
    have h2 : output'.get? r = some (bucketAt output' r) := by
      unfold bucketAt
      rw [List.get?_eq_get (by omega)]
      rfl
    rw [h2, h1]

/-- Reformulation of `build_spec` for a given successful build. -/
theorem build_eq_spec (words : List Word) (S : SearchStructure)
    (hm : ∀ w ∈ words, maskOK w.letters_present)
    (hS : SearchStructure.build 26 words = some S) :
    S.search_structure.length = 26 ∧
      ∀ r, r < 26 → S.search_structure.get? r =
        some (words.filter (fun w => w.letters_present.testBit (31 - r))) := by
  obtain ⟨S', hS', hlen, hb⟩ := build_spec words hm
  rw [hS] at hS'
  have : S = S' := Option.some.inj hS'
  subst this
  exact ⟨hlen, hb⟩

/-! ### Case analysis of check_with -/

theorem check_with_complete (maxSize : Nat) (p : Pangram) (w : Word) (sol : Solution)
    (h : p.check_with maxSize w = PangramState.CompletePangram sol) :
    sol = ⟨sortWords (w :: p.selected_words)⟩ ∧
      26 ≤ leadingOnes32 (p.selected_letters ||| w.letters_present) := by
  simp only [Pangram.check_with] at h
  split_ifs at h with h1 h2
  injection h with h'
  exact ⟨h'.symm, h1⟩

theorem check_with_potential (maxSize : Nat) (p : Pangram) (w : Word) (p' : Pangram)
    (h : p.check_with maxSize w = PangramState.PotentialPangram p') :
    p' = ⟨w :: p.selected_words, p.selected_letters ||| w.letters_present⟩ ∧
      leadingOnes32 (p.selected_letters ||| w.letters_present) < 26 ∧
      p.selected_words.length + 1 < maxSize := by
  simp only [Pangram.check_with] at h
  split_ifs at h with h1 h2
  injection h with h'
  exact ⟨h'.symm, by omega, by omega⟩

theorem check_with_eq_complete (maxSize : Nat) (p : Pangram) (w : Word)
    (h : 26 ≤ leadingOnes32 (p.selected_letters ||| w.letters_present)) :
    p.check_with maxSize w =
      PangramState.CompletePangram ⟨sortWords (w :: p.selected_words)⟩ := by
  simp only [Pangram.check_with]
  rw [if_pos h]

theorem check_with_eq_potential (maxSize : Nat) (p : Pangram) (w : Word)
    (h1 : leadingOnes32 (p.selected_letters ||| w.letters_present) < 26)
    (h2 : p.selected_words.length + 1 < maxSize) :
    p.check_with maxSize w =
      PangramState.PotentialPangram
        ⟨w :: p.selected_words, p.selected_letters ||| w.letters_present⟩ := by
  simp only [Pangram.check_with]
  rw [if_neg (by omega), if_neg (by omega)]

/-! ### Covered-mask bookkeeping -/

theorem orMasks_nil : orMasks [] = 0 := rfl

theorem orMasks_cons (w : Word) (l : List Word) :
    orMasks (w :: l) = w.letters_present ||| orMasks l := rfl

theorem orMasks_perm (l₁ l₂ : List Word) (h : List.Perm l₁ l₂) : orMasks l₁ = orMasks l₂ := by
  induction h with
  | nil => rfl
  | cons x _ ih => rw [orMasks_cons, orMasks_cons, ih]
  | swap x y l =>
    rw [orMasks_cons, orMasks_cons, orMasks_cons, orMasks_cons, ← Nat.lor_assoc,
      ← Nat.lor_assoc, Nat.lor_comm y.letters_present x.letters_present]
  | trans _ _ ih1 ih2 => rw [ih1, ih2]

theorem orMasks_maskOK (l : List Word) (h : ∀ w ∈ l, maskOK w.letters_present) :
    maskOK (orMasks l) := by
  induction l with
  | nil => exact maskOK_zero
  | cons w rest ih =>
    rw [orMasks_cons]
    exact maskOK_lor _ _ (h w (by simp)) (ih (fun v hv => h v (by simp [hv])))

theorem testBit_orMasks_of_mem (l : List Word) (v : Word) (hv : v ∈ l) (k : Nat)
    (hb : v.letters_present.testBit k = true) : (orMasks l).testBit k = true := by
  induction l with
  | nil => cases hv
  | cons w rest ih =>
    rw [orMasks_cons, Nat.testBit_lor]
    rcases List.mem_cons.mp hv with hvw | hvr
    · subst hvw; rw [hb]; rfl
    · rw [ih hvr]; simp

/-! ### The search invariant -/

/-- Invariant of every `Pangram` the recursion visits: the covered mask is the
OR of the selected words, the selected words come from the word list and have
pairwise distinct masks, the depth bound holds, and fewer than 26 letters are
covered (the state recursed rather than completing). -/
def PInv (words : List Word) (maxSize : Nat) (p : Pangram) : Prop :=
  p.selected_letters = orMasks p.selected_words ∧
  (∀ w ∈ p.selected_words, w ∈ words) ∧
  p.selected_words.Pairwise (fun a b => a.letters_present ≠ b.letters_present) ∧
  (1 ≤ maxSize → p.selected_words.length + 1 ≤ maxSize) ∧
  leadingOnes32 p.selected_letters < 26

/-- Strict mask order; emitted solutions are sorted this way. -/
def maskLt (a b : Word) : Prop := a.letters_present < b.letters_present

/-- Everything the individual claims need about an emitted solution. -/
def GoodSol (words : List Word) (maxSize : Nat) (sol : Solution) : Prop :=
  List.Sorted maskLt sol.words ∧
  orMasks sol.words = 2 ^ 32 - 64 ∧
  (1 ≤ maxSize → sol.words.length ≤ maxSize) ∧
  ∀ w ∈ sol.words, w ∈ words

theorem PInv_init (words : List Word) (maxSize : Nat) : PInv words maxSize ⟨[], 0⟩ := by
  refine ⟨rfl, by simp, List.Pairwise.nil, by intro h; simpa using h, ?_⟩
  show leadingOnes32 0 < 26
  decide

/-- A word drawn from the bucket of the next missing letter carries a bit the
covered mask lacks, so its mask differs from every already selected word's. -/
theorem new_bit_fresh (words : List Word) (maxSize : Nat) (p : Pangram) (w : Word)
    (hp : PInv words maxSize p)
    (hbit : w.letters_present.testBit (31 - p.next_missing_letter) = true) :
    ∀ v ∈ p.selected_words, v.letters_present ≠ w.letters_present := by
  intro v hv heq
  have hcov : p.selected_letters.testBit (31 - p.next_missing_letter) = true := by
    rw [hp.1]
    exact testBit_orMasks_of_mem _ v hv _ (by rw [heq]; exact hbit)
  have hfalse := leadingOnes32_next_false p.selected_letters
    (Nat.lt_of_lt_of_le hp.2.2.2.2 (by norm_num))
  have : p.selected_letters.testBit (31 - p.next_missing_letter) = false := hfalse
  rw [this] at hcov
  exact Bool.false_ne_true hcov

theorem cons_pairwise_ne (words : List Word) (maxSize : Nat) (p : Pangram) (w : Word)
    (hp : PInv words maxSize p)
    (hbit : w.letters_present.testBit (31 - p.next_missing_letter) = true) :
    (w :: p.selected_words).Pairwise (fun a b => a.letters_present ≠ b.letters_present) := by
  refine List.Pairwise.cons ?_ hp.2.2.1
  intro v hv
  exact fun h => new_bit_fresh words maxSize p w hp hbit v hv h.symm

/-- A completed extension of an invariant-satisfying pangram by a bucket word
yields a good solution. -/
theorem complete_sol_good (words : List Word) (maxSize : Nat) (p : Pangram) (w : Word)
    (sol : Solution) (hm : ∀ v ∈ words, maskOK v.letters_present)
    (hp : PInv words maxSize p) (hw : w ∈ words)
    (hbit : w.letters_present.testBit (31 - p.next_missing_letter) = true)
    (hc : p.check_with maxSize w = PangramState.CompletePangram sol) :
    GoodSol words maxSize sol := by
  obtain ⟨hsol, h26⟩ := check_with_complete maxSize p w sol hc
  subst hsol
  have hperm : List.Perm (sortWords (w :: p.selected_words)) (w :: p.selected_words) :=
    List.perm_insertionSort maskLe (w :: p.selected_words)
  have hne := cons_pairwise_ne words maxSize p w hp hbit
  have hne' : (sortWords (w :: p.selected_words)).Pairwise
      (fun a b => a.letters_present ≠ b.letters_present) :=
    (hperm.pairwise_iff (fun h => Ne.symm h)).mpr hne
  refine ⟨?_, ?_, ?_, ?_⟩
  · have hle : List.Sorted maskLe (sortWords (w :: p.selected_words)) :=
      List.sorted_insertionSort maskLe (w :: p.selected_words)
    exact (hle.and hne').imp fun h => Nat.lt_of_le_of_ne h.1 h.2
  · rw [orMasks_perm _ _ hperm, orMasks_cons, ← hp.1]
    rw [Nat.lor_comm]
    exact eq_full_mask_of_leadingOnes _
      (maskOK_lor _ _ (by rw [hp.1]; exact orMasks_maskOK _ fun v hv => hm v (hp.2.1 v hv))
        (hm w hw)) h26
  · intro h1
    have hlen : (sortWords (w :: p.selected_words)).length = p.selected_words.length + 1 := by
      rw [hperm.length_eq]
      rfl
    rw [hlen]
    exact hp.2.2.2.1 h1
  · intro v hv
    have hv' : v ∈ w :: p.selected_words := hperm.subset hv
    rcases List.mem_cons.mp hv' with h | h
    · subst h; exact hw
    · exact hp.2.1 v h

/-- A potential extension of an invariant-satisfying pangram by a bucket word
preserves the invariant. -/
theorem potential_PInv (words : List Word) (maxSize : Nat) (p : Pangram) (w : Word)
    (p' : Pangram) (hp : PInv words maxSize p) (hw : w ∈ words)
    (hbit : w.letters_present.testBit (31 - p.next_missing_letter) = true)
    (hc : p.check_with maxSize w = PangramState.PotentialPangram p') :
    PInv words maxSize p' := by
  obtain ⟨hp', hlt, hlen⟩ := check_with_potential maxSize p w p' hc
  subst hp'
  refine ⟨?_, ?_, ?_, ?_, ?_⟩
  · show p.selected_letters ||| w.letters_present = orMasks (w :: p.selected_words)
    rw [orMasks_cons, ← hp.1, Nat.lor_comm]
  · intro v hv
    rcases List.mem_cons.mp hv with h | h
    · subst h; exact hw
    · exact hp.2.1 v h
  · exact cons_pairwise_ne words maxSize p w hp hbit
  · intro _
    show (w :: p.selected_words).length + 1 ≤ maxSize
    simp only [List.length_cons]
    omega
  · exact hlt

/-! ### The search only appends to its accumulator -/

theorem loopWith_append (step : Pangram → List Solution → Option (List Solution))
    (maxSize : Nat) (p : Pangram)
    (hstep : ∀ q acc res, step q acc = some res → ∃ ext, res = acc ++ ext) :
    ∀ bucket acc res, loopWith step maxSize p bucket acc = some res →
      ∃ ext, res = acc ++ ext := by
  intro bucket
  induction bucket with
  | nil =>
    intro acc res h
    have hres : acc = res := by simpa [loopWith] using h
    exact ⟨[], by rw [← hres]; simp⟩
  | cons w rest ih =>
    intro acc res h
    cases hcw : p.check_with maxSize w with
    | CompletePangram s =>
      unfold loopWith at h
      simp only [hcw] at h
      obtain ⟨ext, hext⟩ := ih (acc ++ [s]) res h
      exact ⟨[s] ++ ext, by rw [hext, List.append_assoc]⟩
    | FailedPangram =>
      unfold loopWith at h
      simp only [hcw] at h
      exact ih acc res h
    | PotentialPangram q =>
      unfold loopWith at h
      simp only [hcw] at h
      cases hs : step q acc with
      | none =>
        rw [hs] at h
        exact Option.noConfusion h
      | some acc' =>
        rw [hs] at h
        obtain ⟨e1, he1⟩ := hstep q acc acc' hs
        obtain ⟨e2, he2⟩ := ih acc' res h
        exact ⟨e1 ++ e2, by rw [he2, he1, List.append_assoc]⟩

theorem find_pangramsF_append (S : SearchStructure) (maxSize : Nat) :
    ∀ fuel p acc res, find_pangramsF fuel S maxSize p acc = some res →
      ∃ ext, res = acc ++ ext := by
  intro fuel
  induction fuel with
  | zero =>
    intro p acc res h
    exact absurd h (by simp [find_pangramsF])
  | succ fuel ih =>
    intro p acc res h
    unfold find_pangramsF at h
    cases hb : S.search_structure.get? p.next_missing_letter with
    | none =>
      rw [hb] at h
      exact Option.noConfusion h
    | some bucket =>
      rw [hb] at h
      exact loopWith_append (find_pangramsF fuel S maxSize) maxSize p
        (fun q a r hr => ih q a r hr) bucket acc res h

/-! ### Soundness: every solution the search adds is good -/

theorem loopWith_sound (words : List Word)
    (step : Pangram → List Solution → Option (List Solution)) (maxSize : Nat)
    (hm : ∀ v ∈ words, maskOK v.letters_present)
    (hstep : ∀ q acc res, PInv words maxSize q → step q acc = some res →
      ∀ sol ∈ res, sol ∈ acc ∨ GoodSol words maxSize sol)
    (p : Pangram) (hp : PInv words maxSize p) :
    ∀ bucket,
      (∀ w ∈ bucket, w ∈ words ∧
        w.letters_present.testBit (31 - p.next_missing_letter) = true) →
      ∀ acc res, loopWith step maxSize p bucket acc = some res →
      ∀ sol ∈ res, sol ∈ acc ∨ GoodSol words maxSize sol := by
  intro bucket
  induction bucket with
  | nil =>
    intro _ acc res h sol hsol
    have hres : acc = res := by simpa [loopWith] using h
    left
    rw [hres]
    exact hsol
  | cons w rest ih =>
    intro hb acc res h sol hsol
    have hbw := hb w (by simp)
    cases hcw : p.check_with maxSize w with
    | CompletePangram s =>
      unfold loopWith at h
      simp only [hcw] at h
      have hgood : GoodSol words maxSize s :=
        complete_sol_good words maxSize p w s hm hp hbw.1 hbw.2 hcw
      rcases ih (fun v hv => hb v (by simp [hv])) (acc ++ [s]) res h sol hsol with hin | hg
      · rcases List.mem_append.mp hin with h1 | h2
        · left; exact h1
        · right
          have hss : sol = s := by simpa using h2
          rw [hss]
          exact hgood
      · right; exact hg
    | FailedPangram =>
      unfold loopWith at h
      simp only [hcw] at h
      exact ih (fun v hv => hb v (by simp [hv])) acc res h sol hsol
    | PotentialPangram q =>
      unfold loopWith at h
      simp only [hcw] at h
      cases hs : step q acc with
      | none =>
        rw [hs] at h
        exact Option.noConfusion h
      | some acc' =>
        rw [hs] at h
        have hq : PInv words maxSize q :=
          potential_PInv words maxSize p w q hp hbw.1 hbw.2 hcw
        rcases ih (fun v hv => hb v (by simp [hv])) acc' res h sol hsol with hin | hg
        · exact hstep q acc acc' hq hs sol hin
        · right; exact hg

theorem find_pangramsF_sound (words : List Word) (S : SearchStructure) (maxSize : Nat)
    (hm : ∀ v ∈ words, maskOK v.letters_present)
    (hS : SearchStructure.build 26 words = some S) :
    ∀ fuel p acc res, PInv words maxSize p →
      find_pangramsF fuel S maxSize p acc = some res →
      ∀ sol ∈ res, sol ∈ acc ∨ GoodSol words maxSize sol := by
  obtain ⟨hlen, hspec⟩ := build_eq_spec words S hm hS
  intro fuel
  induction fuel with
  | zero =>
    intro p acc res _ h
    exact absurd h (by simp [find_pangramsF])
  | succ fuel ih =>
    intro p acc res hp h
    unfold find_pangramsF at h
    cases hbuck : S.search_structure.get? p.next_missing_letter with
    | none =>
      rw [hbuck] at h
      exact Option.noConfusion h
    | some bucket =>
      rw [hbuck] at h
      have hr : p.next_missing_letter < 26 := hp.2.2.2.2
      have hbucketeq :
          bucket = words.filter
            (fun w => w.letters_present.testBit (31 - p.next_missing_letter)) := by
        have hsp := hspec _ hr
        rw [hbuck] at hsp
        exact Option.some.inj hsp
      have hb : ∀ w ∈ bucket, w ∈ words ∧
          w.letters_present.testBit (31 - p.next_missing_letter) = true := by
        intro w hw
        rw [hbucketeq] at hw
        exact ⟨(List.mem_filter.mp hw).1, (List.mem_filter.mp hw).2⟩
      exact loopWith_sound words (find_pangramsF fuel S maxSize) maxSize hm
        (fun q a r hq hr' => ih q a r hq hr') p hp bucket hb acc res h

/-- Soundness of the search entry point: every solution in the result of
`find_pangrams` started from the empty pangram and empty accumulator is good. -/
theorem find_pangrams_sound (words : List Word) (S : SearchStructure) (maxSize : Nat)
    (res : List Solution) (hm : ∀ v ∈ words, maskOK v.letters_present)
    (hS : SearchStructure.build 26 words = some S)
    (hres : S.find_pangrams maxSize ⟨[], 0⟩ [] = some res) :
    ∀ sol ∈ res, GoodSol words maxSize sol := by
  intro sol hsol
  have := find_pangramsF_sound words S maxSize hm hS (maxSize + 1) ⟨[], 0⟩ [] res
    (PInv_init words maxSize) hres sol hsol
  rcases this with hin | hg
  · cases hin
  · exact hg

/-! ### Properties of the duplicate filter -/

theorem mem_uniqueAux {α : Type} [DecidableEq α] :
    ∀ (l seen : List α) (x : α), x ∈ uniqueAux seen l ↔ x ∈ l ∧ x ∉ seen := by
  intro l
  induction l with
  | nil =>
    intro seen x
    simp [uniqueAux]
  | cons a rest ih =>
    intro seen x
    by_cases ha : a ∈ seen
    · rw [show uniqueAux seen (a :: rest) = uniqueAux seen rest from by simp [uniqueAux, ha]]
      rw [ih seen x]
      constructor
      · rintro ⟨hx, hns⟩
        exact ⟨List.mem_cons_of_mem a hx, hns⟩
      · rintro ⟨hx, hns⟩
        rcases List.mem_cons.mp hx with hxa | hxr
        · subst hxa; exact absurd ha hns
        · exact ⟨hxr, hns⟩
    · rw [show uniqueAux seen (a :: rest) = a :: uniqueAux (a :: seen) rest from by
        simp [uniqueAux, ha]]
      constructor
      · intro hx
        rcases List.mem_cons.mp hx with hxa | hxr
        · subst hxa; exact ⟨by simp, ha⟩
        · obtain ⟨h1, h2⟩ := (ih (a :: seen) x).mp hxr
          refine ⟨by simp [h1], fun hs => h2 (by simp [hs])⟩
      · rintro ⟨hx, hns⟩
        rcases List.mem_cons.mp hx with hxa | hxr
        · subst hxa; simp
        · by_cases hxa : x = a
          · subst hxa; simp
          · exact List.mem_cons_of_mem a ((ih (a :: seen) x).mpr ⟨hxr, by simp [hxa, hns]⟩)

theorem uniqueAux_nodup {α : Type} [DecidableEq α] :
    ∀ (l seen : List α), (uniqueAux seen l).Nodup := by
  intro l
  induction l with
  | nil =>
    intro seen
    simp [uniqueAux]
  | cons a rest ih =>
    intro seen
    by_cases ha : a ∈ seen
    · rw [show uniqueAux seen (a :: rest) = uniqueAux seen rest from by simp [uniqueAux, ha]]
      exact ih seen
    · rw [show uniqueAux seen (a :: rest) = a :: uniqueAux (a :: seen) rest from by
        simp [uniqueAux, ha]]
      refine List.nodup_cons.mpr ⟨?_, ih (a :: seen)⟩
      intro hmem
      exact ((mem_uniqueAux rest (a :: seen) a).mp hmem).2 (by simp)

theorem mem_unique {α : Type} [DecidableEq α] (l : List α) (x : α) :
    x ∈ unique l ↔ x ∈ l := by
  unfold unique
  rw [mem_uniqueAux]
  simp

theorem unique_nodup {α : Type} [DecidableEq α] (l : List α) : (unique l).Nodup :=
  uniqueAux_nodup l []

theorem unique_length_toFinset {α : Type} [DecidableEq α] (l : List α) :
    (unique l).length = l.toFinset.card := by
  have h1 : (unique l).toFinset = l.toFinset := by
    ext x
    simp [List.mem_toFinset, mem_unique]
  rw [← h1, List.toFinset_card_of_nodup (unique_nodup l)]

/-! ### Canonical form of emitted solutions -/

instance : IsAntisymm Word maskLt := ⟨fun _ _ h1 h2 => absurd h2 (Nat.lt_asymm h1)⟩

theorem sorted_perm_eq (s1 s2 : Solution)
    (h1 : List.Sorted maskLt s1.words) (h2 : List.Sorted maskLt s2.words)
    (hp : List.Perm s1.words s2.words) : s1 = s2 := by
  have h : s1.words = s2.words := List.eq_of_perm_of_sorted hp h1 h2
  cases s1
  cases s2
  simpa using h

/-! ### Completeness: the search reaches every orderable word set -/

/-- A word sequence the search discipline can follow from pangram `p`: each
word is drawn from the bucket of the currently missing letter, intermediate
extensions stay below 26 covered leading letters and below the depth bound,
and the last word completes the alphabet. -/
inductive Reaches (S : SearchStructure) (maxSize : Nat) : Pangram → List Word → Prop where
  | done (p : Pangram) (w : Word) (bucket : Bucket)
      (hb : S.search_structure.get? p.next_missing_letter = some bucket) (hw : w ∈ bucket)
      (hc : 26 ≤ leadingOnes32 (p.selected_letters ||| w.letters_present)) :
      Reaches S maxSize p [w]
  | step (p : Pangram) (w : Word) (bucket : Bucket) (ws : List Word)
      (hb : S.search_structure.get? p.next_missing_letter = some bucket) (hw : w ∈ bucket)
      (hc : leadingOnes32 (p.selected_letters ||| w.letters_present) < 26)
      (hlen : p.selected_words.length + 1 < maxSize)
      (hrest : Reaches S maxSize
        ⟨w :: p.selected_words, p.selected_letters ||| w.letters_present⟩ ws) :
      Reaches S maxSize p (w :: ws)

/-- A solution completed by any bucket word ends up in the loop's result. -/
theorem loopWith_emits (step : Pangram → List Solution → Option (List Solution))
    (maxSize : Nat) (p : Pangram)
    (hstep : ∀ q acc res, step q acc = some res → ∃ ext, res = acc ++ ext) :
    ∀ bucket acc res, loopWith step maxSize p bucket acc = some res →
      ∀ w ∈ bucket, ∀ s, p.check_with maxSize w = PangramState.CompletePangram s →
        s ∈ res := by
  intro bucket
  induction bucket with
  | nil =>
    intro acc res _ w hw
    cases hw
  | cons a rest ih =>
    intro acc res h w hw s hcw
    rcases List.mem_cons.mp hw with hwa | hwr
    · subst hwa
      unfold loopWith at h
      simp only [hcw] at h
      obtain ⟨ext, hext⟩ := loopWith_append step maxSize p hstep rest (acc ++ [s]) res h
      rw [hext]
      simp
    · cases hca : p.check_with maxSize a with
      | CompletePangram s' =>
        unfold loopWith at h
        simp only [hca] at h
        exact ih (acc ++ [s']) res h w hwr s hcw
      | FailedPangram =>
        unfold loopWith at h
        simp only [hca] at h
        exact ih acc res h w hwr s hcw
      | PotentialPangram q =>
        unfold loopWith at h
        simp only [hca] at h
        cases hs : step q acc with
        | none =>
          rw [hs] at h
          exact Option.noConfusion h
        | some acc' =>
          rw [hs] at h
          exact ih acc' res h w hwr s hcw

/-- The recursion performed for any potential extension by a bucket word runs
on some accumulator, and its entire result survives into the loop's result. -/
theorem loopWith_potential_run (step : Pangram → List Solution → Option (List Solution))
    (maxSize : Nat) (p : Pangram)
    (hstep : ∀ q acc res, step q acc = some res → ∃ ext, res = acc ++ ext) :
    ∀ bucket acc res, loopWith step maxSize p bucket acc = some res →
      ∀ w ∈ bucket, ∀ q, p.check_with maxSize w = PangramState.PotentialPangram q →
        ∃ acc₁ res₁ ext, step q acc₁ = some res₁ ∧ res = res₁ ++ ext := by
  intro bucket
  induction bucket with
  | nil =>
    intro acc res _ w hw
    cases hw
  | cons a rest ih =>
    intro acc res h w hw q hcw
    rcases List.mem_cons.mp hw with hwa | hwr
    · subst hwa
      unfold loopWith at h
      simp only [hcw] at h
      cases hs : step q acc with
      | none =>
        rw [hs] at h
        exact Option.noConfusion h
      | some acc' =>
        rw [hs] at h
        obtain ⟨ext, hext⟩ := loopWith_append step maxSize p hstep rest acc' res h
        exact ⟨acc, acc', ext, hs, hext⟩
    · cases hca : p.check_with maxSize a with
      | CompletePangram s' =>
        unfold loopWith at h
        simp only [hca] at h
        exact ih (acc ++ [s']) res h w hwr q hcw
      | FailedPangram =>
        unfold loopWith at h
        simp only [hca] at h
        exact ih acc res h w hwr q hcw
      | PotentialPangram q' =>
        unfold loopWith at h
        simp only [hca] at h
        cases hs : step q' acc with
        | none =>
          rw [hs] at h
          exact Option.noConfusion h
        | some acc' =>
          rw [hs] at h
          exact ih acc' res h w hwr q hcw

theorem find_pangramsF_complete (S : SearchStructure) (maxSize : Nat)
    (p : Pangram) (ws : List Word) (hre : Reaches S maxSize p ws) :
    ∀ fuel acc res, maxSize - p.selected_words.length < fuel →
      find_pangramsF fuel S maxSize p acc = some res →
      ∃ sol ∈ res, List.Perm sol.words (ws ++ p.selected_words) := by
  induction hre with
  | done p w bucket hb hw hc =>
    intro fuel acc res hfuel h
    obtain ⟨fuel, rfl⟩ : ∃ f, fuel = f + 1 := ⟨fuel - 1, by omega⟩
    unfold find_pangramsF at h
    rw [hb] at h
    have hcw := check_with_eq_complete maxSize p w hc
    have hs : (⟨sortWords (w :: p.selected_words)⟩ : Solution) ∈ res :=
      loopWith_emits _ maxSize p
        (fun q a r hr => find_pangramsF_append S maxSize fuel q a r hr)
        bucket acc res h w hw _ hcw
    refine ⟨_, hs, ?_⟩
    show List.Perm (sortWords (w :: p.selected_words)) ([w] ++ p.selected_words)
    exact List.perm_insertionSort maskLe _
  | step p w bucket ws hb hw hc hlen hrest ih =>
    intro fuel acc res hfuel h
    obtain ⟨fuel, rfl⟩ : ∃ f, fuel = f + 1 := ⟨fuel - 1, by omega⟩
    unfold find_pangramsF at h
    rw [hb] at h
    have hcw := check_with_eq_potential maxSize p w hc hlen
    obtain ⟨acc₁, res₁, ext, hstep₁, hres⟩ :=
      loopWith_potential_run _ maxSize p
        (fun q a r hr => find_pangramsF_append S maxSize fuel q a r hr)
        bucket acc res h w hw _ hcw
    have hfuel' :
        maxSize - (⟨w :: p.selected_words,
          p.selected_letters ||| w.letters_present⟩ : Pangram).selected_words.length < fuel := by
      simp only [List.length_cons]
      omega
    obtain ⟨sol, hsol, hperm⟩ := ih fuel acc₁ res₁ hfuel' hstep₁
    refine ⟨sol, by rw [hres]; exact List.mem_append_left _ hsol, ?_⟩
    have hmid : List.Perm (ws ++ w :: p.selected_words) ((w :: ws) ++ p.selected_words) :=
      List.perm_middle
    exact hperm.trans hmid

/-- Completeness of the search entry point: every word sequence the search
discipline can follow from the empty pangram yields (up to reordering) a
solution in the result. -/
theorem find_pangrams_complete (S : SearchStructure) (maxSize : Nat) (T : List Word)
    (res : List Solution) (hT : Reaches S maxSize ⟨[], 0⟩ T)
    (hres : S.find_pangrams maxSize ⟨[], 0⟩ [] = some res) :
    ∃ sol ∈ res, List.Perm sol.words T := by
  obtain ⟨sol, hsol, hperm⟩ :=
    find_pangramsF_complete S maxSize ⟨[], 0⟩ T hT (maxSize + 1) [] res (by simp) hres
  exact ⟨sol, hsol, by simpa using hperm⟩

/-! ### Fuel irrelevance: the entry-point fuel is sufficient -/

theorem loopWith_congr (step₁ step₂ : Pangram → List Solution → Option (List Solution))
    (maxSize : Nat) (p : Pangram)
    (hstep : ∀ q acc, q.selected_words.length = p.selected_words.length + 1 →
      q.selected_words.length < maxSize → step₁ q acc = step₂ q acc) :
    ∀ bucket acc, loopWith step₁ maxSize p bucket acc = loopWith step₂ maxSize p bucket acc := by
  intro bucket
  induction bucket with
  | nil => intro acc; rfl
  | cons a rest ih =>
    intro acc
    cases hca : p.check_with maxSize a with
    | CompletePangram s =>
      unfold loopWith
      simp only [hca]
      exact ih _
    | FailedPangram =>
      unfold loopWith
      simp only [hca]
      exact ih _
    | PotentialPangram q =>
      unfold loopWith
      simp only [hca]
      obtain ⟨hq, hlt, hlen⟩ := check_with_potential maxSize p a q hca
      have hql : q.selected_words.length = p.selected_words.length + 1 := by
        rw [hq]
        simp
      rw [hstep q acc hql (by omega)]
      cases step₂ q acc with
      | none => rfl
      | some acc' => exact ih acc'

/-- Any fuel exceeding the remaining depth budget gives the same result, so
the `maxSize + 1` used by `find_pangrams` behaves as the unbounded Rust
recursion. -/
theorem find_pangramsF_fuel_irrelevant (S : SearchStructure) (maxSize : Nat) :
    ∀ fuel₁ fuel₂ p acc, maxSize - p.selected_words.length < fuel₁ →
      maxSize - p.selected_words.length < fuel₂ →
      find_pangramsF fuel₁ S maxSize p acc = find_pangramsF fuel₂ S maxSize p acc := by
  intro fuel₁
  induction fuel₁ with
  | zero =>
    intro fuel₂ p acc h1 h2
    omega
  | succ fuel₁ ih =>
    intro fuel₂ p acc h1 h2
    obtain ⟨fuel₂, rfl⟩ : ∃ f, fuel₂ = f + 1 := ⟨fuel₂ - 1, by omega⟩
    unfold find_pangramsF
    cases hb : S.search_structure.get? p.next_missing_letter with
    | none => rfl
    | some bucket =>
      exact loopWith_congr _ _ maxSize p
        (fun q acc' hql hqlen => ih fuel₂ q acc' (by omega) (by omega)) bucket acc

/-! ### Concrete corpora for the claims -/

def SFull : SearchStructure := ⟨List.replicate 26 [wFull]⟩

def resFull : List Solution := [⟨[wFull]⟩]

def corpusC2 : List (List Char) := ["AB".toList, "CD".toList, "EF".toList, "ABCDEF".toList]

def orderC2 : List Char := "ABCDEF".toList

def corpusC5 : List (List Char) := [alphaChars, alphaRevChars]

def resC5 : List Solution :=
  [⟨[Word.parse_string alphaChars alphaChars]⟩,
   ⟨[Word.parse_string alphaRevChars alphaChars]⟩]

def corpusC1 : List (List Char) := [alphaChars, "BC".toList]

def orderC1 : List Char := "ADEFGHIJKLMNOPQRSTUVWXYZBC".toList

def wBC : Word := Word.parse_string "BC".toList orderC1

def corpusC4 : List (List Char) := ["AB".toList, "BA".toList]

def orderC4 : List Char := ['A', 'B']

/-! ### The claims -/

/-- C1 counterexample: with corpus {ABCDEFGHIJKLMNOPQRSTUVWXYZ, BC}, a valid
rarity order (the 24 letters absent from BC are rarest), and the program's
`max_solution_size` of 4, the two-word subset {full word, BC} of the corpus
has full coverage and size within the bound, yet the search emits only the
singleton solution {full word}: BC lacks the rarest letter, so it can never
be picked first, and picking the full word first completes immediately.
Search is therefore not exhaustive over all covering subsets. -/
theorem C1_counterexample :
    validRarityOrder (normalizeInput corpusC1) orderC1 ∧
    (∀ w ∈ [wFull, wBC], w ∈ wordListOf corpusC1 orderC1) ∧
    ([wFull, wBC] : List Word).Nodup ∧
    ([wFull, wBC] : List Word).length ≤ MAX_SOLUTION_SIZE ∧
    orMasks [wFull, wBC] = 2 ^ 32 - 64 ∧
    pipeline corpusC1 orderC1 MAX_SOLUTION_SIZE = some [⟨[wFull]⟩] ∧
    ∀ sol ∈ [(⟨[wFull]⟩ : Solution)], ¬ List.Perm sol.words [wFull, wBC] := by
  decide

/-- C1 (amended): the search is exhaustive over the orderable covering sets:
for every word sequence that the next-missing-letter discipline can follow
from the empty Partial Solution — each word lies in the bucket of the lowest
rank not covered by its predecessors, every proper prefix covers fewer than
26 letters and respects the depth bound, and the last word completes the
alphabet — some emitted Solution equals that set of words (as a multiset,
hence as a set of Word Entries). -/
theorem C1_exhaustive_for_orderable_sets (S : SearchStructure) (maxSize : Nat)
    (T : List Word) (res : List Solution) (hT : Reaches S maxSize ⟨[], 0⟩ T)
    (hres : S.find_pangrams maxSize ⟨[], 0⟩ [] = some res) :
    ∃ sol ∈ res, List.Perm sol.words T :=
  find_pangrams_complete S maxSize T res hT hres

theorem C1_witness :
    Reaches SFull 4 ⟨[], 0⟩ [wFull] ∧
    SFull.find_pangrams 4 ⟨[], 0⟩ [] = some resFull ∧
    ∃ sol ∈ resFull, List.Perm sol.words [wFull] :=
  ⟨Reaches.done ⟨[], 0⟩ wFull [wFull] (by decide) (by decide) (by decide),
   by decide,
   C1_exhaustive_for_orderable_sets SFull 4 [wFull] resFull
     (Reaches.done ⟨[], 0⟩ wFull [wFull] (by decide) (by decide) (by decide))
     (by decide)⟩

/-- C2 counterexample: on the reduced 6-letter scenario (corpus
[AB, CD, EF, ABCDEF], a valid rarity order over {A..F},
`max_solution_size` = 3) the run does not report a count of 2: the
completion test is hard-coded to 26 leading ones, so after the six letters
are covered the recursion asks for bucket 6 of a 6-bucket structure — an
out-of-bounds index (a Rust panic, modelled as none). -/
theorem C2_counterexample :
    validRarityOrder (normalizeInput corpusC2) orderC2 ∧
    pipelineCount corpusC2 orderC2 3 ≠ some 2 := by
  decide

/-- C2 (amended): on the reduced 6-letter scenario the run aborts with an
out-of-bounds bucket index instead of reporting any count, because
`check_with` requires 26 leading ones to classify Complete. -/
theorem C2_run_aborts : pipeline corpusC2 orderC2 3 = none := by
  decide

/-- C3 counterexample: on the empty corpus the run does not report a count of
0: the search immediately indexes bucket 0 of an empty bucket structure (a
Rust panic, modelled as none). -/
theorem C3_counterexample :
    validRarityOrder (normalizeInput []) [] ∧
    pipelineCount [] [] MAX_SOLUTION_SIZE ≠ some 0 := by
  decide

/-- C3 (amended): on the empty normalized word list the run aborts at the
first bucket lookup instead of completing with zero Solutions and count 0;
the search is not total on a bucket structure with fewer than one bucket. -/
theorem C3_empty_corpus_aborts : pipeline [] [] MAX_SOLUTION_SIZE = none := by
  decide

/-- C4 counterexample: with corpus {AB, BA} and a valid rarity order, the
encoded word list keeps two distinct Word entries with bit-identical masks,
so it does not contain at most one entry per distinct mask and no
multiplicity is recorded anywhere. -/
theorem C4_counterexample :
    validRarityOrder (normalizeInput corpusC4) orderC4 ∧
    wordListOf corpusC4 orderC4 =
      [Word.parse_string "AB".toList orderC4, Word.parse_string "BA".toList orderC4] ∧
    (Word.parse_string "AB".toList orderC4).letters_present =
      (Word.parse_string "BA".toList orderC4).letters_present ∧
    Word.parse_string "AB".toList orderC4 ≠ Word.parse_string "BA".toList orderC4 := by
  decide

/-- C4 (amended): words with the same letter set encode to bit-identical
masks, but the encoder never merges them: the encoded word list has exactly
one entry per normalized word, preserving each word as the entry's name, and
carries no multiplicity. -/
theorem C4_no_merging (s t : List Char) (order : List Char)
    (hst : ∀ c ∈ s, c ∈ t) (hts : ∀ c ∈ t, c ∈ s) :
    (Word.parse_string s order).letters_present =
      (Word.parse_string t order).letters_present ∧
    ∀ lines : List (List Char),
      (wordListOf lines order).map Word.name = normalizeInput lines := by
  constructor
  · show foldMask s order <<< (32 - order.length) = foldMask t order <<< (32 - order.length)
    have hfold : foldMask s order = foldMask t order := by
      unfold foldMask
      have hgen : ∀ (o : List Char) (init : Nat),
          o.foldl (fun acc letter => 2 * acc + (if letter ∈ s then 1 else 0)) init =
            o.foldl (fun acc letter => 2 * acc + (if letter ∈ t then 1 else 0)) init := by
        intro o
        induction o with
        | nil => intro init; rfl
        | cons c rest ih =>
          intro init
          have hc : (if c ∈ s then (1 : Nat) else 0) = (if c ∈ t then 1 else 0) := by
            by_cases hcs : c ∈ s
            · rw [if_pos hcs, if_pos (hst c hcs)]
            · rw [if_neg hcs, if_neg (fun hct => hcs (hts c hct))]
          show List.foldl _ (2 * init + (if c ∈ s then 1 else 0)) rest = _
          rw [hc]
          exact ih _
      exact hgen order 0
    rw [hfold]
  · intro lines
    unfold wordListOf
    rw [List.map_map]
    have hid : (Word.name ∘ fun s => Word.parse_string s order) = id := by
      funext x
      rfl
    rw [hid, List.map_id]

theorem C4_witness :
    (∀ c ∈ "AB".toList, c ∈ "BA".toList) ∧ (∀ c ∈ "BA".toList, c ∈ "AB".toList) ∧
    ((Word.parse_string "AB".toList orderC4).letters_present =
        (Word.parse_string "BA".toList orderC4).letters_present ∧
      ∀ lines : List (List Char),
        (wordListOf lines orderC4).map Word.name = normalizeInput lines) :=
  ⟨by decide, by decide,
   C4_no_merging "AB".toList "BA".toList orderC4 (by decide) (by decide)⟩

/-- C5 counterexample: with corpus {ABCDEFGHIJKLMNOPQRSTUVWXYZ and its
reversal} — two anagrams of the full alphabet — the program prints 2 (the
number of distinct deduplicated Solutions), while the spec's sum over
distinct Solutions of the product of merged-word multiplicities (each word's
mask is shared by 2 corpus words) evaluates to 4.  The printed integer is
therefore not the multiplicity-weighted sum the claim describes. -/
theorem C5_counterexample :
    validRarityOrder (normalizeInput corpusC5) alphaChars ∧
    pipelineCount corpusC5 alphaChars MAX_SOLUTION_SIZE = some 2 ∧
    specMultTotal corpusC5 alphaChars MAX_SOLUTION_SIZE = some 4 ∧
    pipelineCount corpusC5 alphaChars MAX_SOLUTION_SIZE ≠
      specMultTotal corpusC5 alphaChars MAX_SOLUTION_SIZE := by
  decide

/-- C5 (amended): the single integer printed at the end is exactly the number
of distinct deduplicated Solutions — the cardinality of the set of emitted
Solutions.  No multiplicity product is applied (the code never merges
anagrams, so each anagram choice already appears as its own Solution). -/
theorem C5_printed_is_distinct_count (lines : List (List Char)) (order : List Char)
    (maxSize : Nat) (res : List Solution)
    (h : pipeline lines order maxSize = some res) :
    pipelineCount lines order maxSize = some res.toFinset.card := by
  unfold pipelineCount
  rw [h]
  simp [unique_length_toFinset]

theorem C5_witness :
    pipeline corpusC5 alphaChars 4 = some resC5 ∧
    pipelineCount corpusC5 alphaChars 4 = some resC5.toFinset.card :=
  ⟨by decide, C5_printed_is_distinct_count corpusC5 alphaChars 4 resC5 (by decide)⟩

/-- C6: No duplicates: after deduplication, no two Solutions in the result
are equal as sets of Word Entries (order-independent comparison), for every
word list whose masks use the 26 high bits, every bucket structure built from
it, and every max solution size.  Emitted solutions are canonically sorted by
strictly increasing mask, so list-level deduplication is set-level. -/
theorem C6_no_duplicate_solutions (words : List Word) (maxSize : Nat)
    (S : SearchStructure) (res : List Solution)
    (hm : ∀ v ∈ words, maskOK v.letters_present)
    (hS : SearchStructure.build 26 words = some S)
    (hres : S.find_pangrams maxSize ⟨[], 0⟩ [] = some res) :
    (unique res).Pairwise (fun a b => ¬ List.Perm a.words b.words) := by
  have hnodup : (unique res).Nodup := unique_nodup res
  have hgood : ∀ sol ∈ unique res, List.Sorted maskLt sol.words := by
    intro sol hsol
    exact (find_pangrams_sound words S maxSize res hm hS hres sol
      ((mem_unique res sol).mp hsol)).1
  exact hnodup.imp_of_mem fun {a b} ha hb hne hperm =>
    hne (sorted_perm_eq a b (hgood a ha) (hgood b hb) hperm)

theorem C6_witness :
    (∀ v ∈ [wFull], maskOK v.letters_present) ∧
    SearchStructure.build 26 [wFull] = some SFull ∧
    SFull.find_pangrams 4 ⟨[], 0⟩ [] = some resFull ∧
    (unique resFull).Pairwise (fun a b => ¬ List.Perm a.words b.words) :=
  ⟨by decide, by decide, by decide,
   C6_no_duplicate_solutions [wFull] 4 SFull resFull (by decide) (by decide) (by decide)⟩

/-- C7: Coverage invariant: for every Solution emitted by the search over a
word list whose masks use the 26 high bits, the bitwise OR of the Solution's
word masks equals the full-alphabet mask (all 26 relevant bits set, i.e.
2 ^ 32 - 64 with the left-justified bit layout). -/
theorem C7_coverage_invariant (words : List Word) (maxSize : Nat)
    (S : SearchStructure) (res : List Solution)
    (hm : ∀ v ∈ words, maskOK v.letters_present)
    (hS : SearchStructure.build 26 words = some S)
    (hres : S.find_pangrams maxSize ⟨[], 0⟩ [] = some res) :
    ∀ sol ∈ res, orMasks sol.words = 2 ^ 32 - 64 :=
  fun sol hsol => (find_pangrams_sound words S maxSize res hm hS hres sol hsol).2.1

theorem C7_witness :
    (∀ v ∈ [wFull], maskOK v.letters_present) ∧
    SearchStructure.build 26 [wFull] = some SFull ∧
    SFull.find_pangrams 4 ⟨[], 0⟩ [] = some resFull ∧
    ∀ sol ∈ resFull, orMasks sol.words = 2 ^ 32 - 64 :=
  ⟨by decide, by decide, by decide,
   C7_coverage_invariant [wFull] 4 SFull resFull (by decide) (by decide) (by decide)⟩

/-- C8: Bound invariant: for every positive max solution size (the
configuration domain), every Solution emitted by the search has at most that
many words; a branch reaching the bound without completing is classified
Failed and never extended. -/
theorem C8_bound_invariant (words : List Word) (maxSize : Nat)
    (S : SearchStructure) (res : List Solution)
    (hm : ∀ v ∈ words, maskOK v.letters_present)
    (hS : SearchStructure.build 26 words = some S)
    (hres : S.find_pangrams maxSize ⟨[], 0⟩ [] = some res)
    (hmax : 1 ≤ maxSize) :
    ∀ sol ∈ res, sol.words.length ≤ maxSize :=
  fun sol hsol => (find_pangrams_sound words S maxSize res hm hS hres sol hsol).2.2.1 hmax

theorem C8_witness :
    (∀ v ∈ [wFull], maskOK v.letters_present) ∧
    SearchStructure.build 26 [wFull] = some SFull ∧
    SFull.find_pangrams 4 ⟨[], 0⟩ [] = some resFull ∧
    1 ≤ 4 ∧
    ∀ sol ∈ resFull, sol.words.length ≤ 4 :=
  ⟨by decide, by decide, by decide, by decide,
   C8_bound_invariant [wFull] 4 SFull resFull (by decide) (by decide) (by decide)
     (by decide)⟩

/-- C9: Encoding round-trip: for any word and any rank ordering of at most 32
letters (in the program the 26-letter rarity permutation), the letter of rank
r occurs in the word if and only if the bit at position r counted from the
most significant used bit — bit 31 - r of the left-justified 32-bit field —
is set in the mask produced by the encoder. -/
theorem C9_encoding_round_trip (s order : List Char) (hlen : order.length ≤ 32)
    (r : Nat) (L : Char) (hr : order.get? r = some L) :
    L ∈ s ↔ ((Word.parse_string s order).letters_present.testBit (31 - r) = true) :=
  (parse_string_testBit s order hlen r L hr).symm

theorem C9_witness :
    alphaChars.length ≤ 32 ∧ alphaChars.get? 2 = some 'C' ∧
    ('C' ∈ "AC".toList ↔
      ((Word.parse_string "AC".toList alphaChars).letters_present.testBit (31 - 2) = true)) :=
  ⟨by decide, by decide,
   C9_encoding_round_trip "AC".toList alphaChars (by decide) 2 'C' (by decide)⟩

/-- C10: No emitted Solution contains the same Word twice: the words of every
emitted Solution are pairwise distinct, because each candidate is drawn from
the bucket of a letter the current Partial Solution does not cover, while an
already chosen word's letters are all covered. -/
theorem C10_words_pairwise_distinct (words : List Word) (maxSize : Nat)
    (S : SearchStructure) (res : List Solution)
    (hm : ∀ v ∈ words, maskOK v.letters_present)
    (hS : SearchStructure.build 26 words = some S)
    (hres : S.find_pangrams maxSize ⟨[], 0⟩ [] = some res) :
    ∀ sol ∈ res, sol.words.Nodup := by
  intro sol hsol
  have hs := (find_pangrams_sound words S maxSize res hm hS hres sol hsol).1
  exact hs.imp fun {a b} hab heq => absurd (heq ▸ hab) (Nat.lt_irrefl _)

theorem C10_witness :
    (∀ v ∈ [wFull], maskOK v.letters_present) ∧
    SearchStructure.build 26 [wFull] = some SFull ∧
    SFull.find_pangrams 4 ⟨[], 0⟩ [] = some resFull ∧
    ∀ sol ∈ resFull, sol.words.Nodup :=
  ⟨by decide, by decide, by decide,
   C10_words_pairwise_distinct [wFull] 4 SFull resFull (by decide) (by decide)
     (by decide)⟩

end PangramFinder
